import Mathlib

/-!
Verification of the minify/unminify shell scripts of the `site` repository.

The two scripts are:

  minify() {                            unminify() {
    cd "$1"                               cd "$1"
    [ ! -d .tmp ] && mkdir .tmp           for f in $(ls); do
    for f in $(ls); do                      if [ -f $f ]; then
      if [ -f $f ]; then                      cp .tmp/$f $f
        cp $f .tmp/$f                         continue
        cat .tmp/$f | tr -d（see note）        fi
          | sed -E（see note）> $f          done
      fi                                  rm -r .tmp/
    done                                  cd -
    cd -                                }
  }

and each script then calls its function on the fixed list
_layouts, _layouts/indexes, _layouts/indexes/category, _layouts/partials.

The embedding below models a directory as an association list of regular
files (name, content) plus an optional `.tmp` subdirectory, and models the
POSIX shell semantics the scripts rely on:

  * `ls` lists the non-dot-prefixed file names in sorted order;
  * the unquoted `$(ls)` is field-split on whitespace, so a file name
    containing spaces/tabs/newlines contributes several words;
  * `[ -f $f ]` fails when `$f` splits into several fields;
  * `tr -d` removes every occurrence of the named byte;
  * GNU `sed -E "s/\x7b2,}//g"` removes every occurrence of the literal
    four-character string `\x7b2,\x7d` (in ERE a backslash-escaped brace is a
    literal brace, so no interval/quantifier is formed), scanning left to
    right without re-examining the text produced by a removal, and does not
    append a trailing newline to input that lacks one;
  * a failed `cd "$1"` does not stop the script: the function body then runs
    in the caller's current working directory; `cd -` fails when `OLDPWD` is
    unset and otherwise returns to it.

Pathname (glob) expansion is modelled for the loop word list `$(ls)` and
for the unquoted `$f` in command-argument position (the `[ -f $f ]` test,
for which a multi-field expansion is a test error): after field splitting,
a field containing one of `*`, `?`, `[` is matched against the directory's
entries (a leading dot must be matched by a literal leading dot), and is
replaced by the sorted matches, or kept literally when nothing matches.
The redirection word `> $f` is, as POSIX requires of a non-interactive
shell, neither field-split nor pathname-expanded: it names the file `$f`
literally.  One simplification remains: the composite words `.tmp/$f`
(the `cp` destination and the `cat` operand) are field-split but not
pathname-expanded.  A difference can only arise for a word that kept a
glob metacharacter past the `[ -f $f ]` test, and no theorem below is
sensitive to it: they either take concrete glob-free inputs, carry a
`plainN` hypothesis under which no word has a metacharacter, or — the
frame property for hidden entries — conclude only about dot-prefixed
names, which an expansion of `.tmp/<pattern>` can never denote, because a
pattern whose final component does not begin with a literal dot never
matches a hidden cache entry.
-/

namespace Site

/-- A regular file: name and byte content (modelled as a `String`). -/
abbrev File := String × String

/-- A target directory: its regular files, and the `.tmp` cache subdirectory
(`none` when `.tmp` does not exist). -/
structure Dir where
  files : List File
  tmp : Option (List File)
deriving DecidableEq, Repr

/-- Look a file name up in a file list (first match wins, as in a directory
there is at most one entry per name). -/
def lookupF : List File → String → Option String
  | [], _ => none
  | (m, c) :: rest, n => if m = n then some c else lookupF rest n

/-- Overwrite the entry of name `n` with content `v`, creating it at the end
of the list when absent (the effect of writing to path `n`). -/
def setFile : List File → String → String → List File
  | [], n, v => [(n, v)]
  | (m, c) :: rest, n, v =>
    if m = n then (n, v) :: rest else (m, c) :: setFile rest n v

/-- The file names of a directory. -/
def names (d : Dir) : List String := d.files.map Prod.fst

/-- Cache lookup: the content of `.tmp/n`, when `.tmp` exists and holds `n`. -/
def tmpLookup (d : Dir) (n : String) : Option String :=
  match d.tmp with
  | none => none
  | some t => lookupF t n

/-- Does the name start with a dot (hidden from `ls`)? -/
def startsDot (n : String) : Bool :=
  match n.data with
  | [] => false
  | c :: _ => c = '.'

/-- The IFS whitespace characters the shell splits unquoted expansions on. -/
def isWsChar (c : Char) : Bool := c = ' ' || c = '\t' || c = '\n'

/-- Field-splitting of an unquoted expansion: accumulate maximal runs of
non-whitespace characters. `cur` is the (reversed) word being read. -/
def splitWsAux : List Char → List Char → List String
  | [], cur => if cur.isEmpty then [] else [String.mk cur.reverse]
  | c :: rest, cur =>
    if isWsChar c then
      if cur.isEmpty then splitWsAux rest []
      else String.mk cur.reverse :: splitWsAux rest []
    else splitWsAux rest (c :: cur)

/-- The fields an unquoted `$x` with value `s` expands to. -/
def splitWs (s : String) : List String := splitWsAux s.data []

/-- Byte-wise comparison of names, the `ls` collation order. -/
def charListLe : List Char → List Char → Bool
  | [], _ => true
  | _ :: _, [] => false
  | a :: as, b :: bs => if a = b then charListLe as bs else decide (a < b)

def strLe (s t : String) : Bool := charListLe s.data t.data

def insertStr (s : String) : List String → List String
  | [] => [s]
  | x :: xs => if strLe s x then s :: x :: xs else x :: insertStr s xs

/-- Sorting of the directory listing, as `ls` prints names sorted. -/
def sortStrs : List String → List String
  | [] => []
  | x :: xs => insertStr x (sortStrs xs)

/-- The output of `ls` in a directory: the non-hidden names, sorted. -/
def lsNames (d : Dir) : List String :=
  sortStrs ((names d).filter (fun n => !startsDot n))

/-- Does the word contain a glob metacharacter (so that the shell subjects
it to pathname expansion)? -/
def hasGlobChar (w : String) : Bool :=
  w.data.any (fun c => c = '*' || c = '?' || c = '[')

/-- Parse the rest of a bracket expression into a list of character ranges
(a single member `c` is the range `(c, c)`); returns the ranges and the
pattern after the closing bracket, or `none` when unterminated. -/
def parseBracketAux : List Char → List (Char × Char) →
    Option (List (Char × Char) × List Char)
  | [], _ => none
  | ']' :: rest, acc => some (acc, rest)
  | a :: '-' :: b :: rest, acc =>
    if b = ']' then some ((a, a) :: ('-', '-') :: acc, rest)
    else parseBracketAux rest ((a, b) :: acc)
  | a :: rest, acc => parseBracketAux rest ((a, a) :: acc)

/-- Parse a bracket expression after its opening `[`: an optional leading
`!` negates, and a `]` in first member position is a literal member. -/
def parseBracket (l : List Char) : Option (Bool × List (Char × Char) × List Char) :=
  match l with
  | '!' :: ']' :: rest =>
    (parseBracketAux rest [(']', ']')]).map (fun p => (true, p.1, p.2))
  | '!' :: rest =>
    (parseBracketAux rest []).map (fun p => (true, p.1, p.2))
  | ']' :: rest =>
    (parseBracketAux rest [(']', ']')]).map (fun p => (false, p.1, p.2))
  | rest =>
    (parseBracketAux rest []).map (fun p => (false, p.1, p.2))

def inRanges (rs : List (Char × Char)) (c : Char) : Bool :=
  rs.any (fun p => p.1 ≤ c && c ≤ p.2)

/-- The shell pattern matcher: `*` matches any (possibly empty) run, `?` any
one character, `[…]` a bracket expression (`!` negation, ranges, a literal
`]` first; an unterminated `[` is literal), any other character itself.
The `Nat` argument is recursion fuel; `globMatch` passes enough that the
zero case is never reached (every step consumes a pattern or subject
character). -/
def globMatchF : Nat → List Char → List Char → Bool
  | 0, _, _ => false
  | _ + 1, [], s => s.isEmpty
  | fuel + 1, '*' :: p, s =>
    globMatchF fuel p s ||
      (match s with
       | [] => false
       | _ :: s' => globMatchF fuel ('*' :: p) s')
  | fuel + 1, '?' :: p, s =>
    (match s with
     | [] => false
     | _ :: s' => globMatchF fuel p s')
  | fuel + 1, '[' :: p, s =>
    (match parseBracket p with
     | some (neg, rs, p') =>
       (match s with
        | [] => false
        | c :: s' =>
          (if neg then !inRanges rs c else inRanges rs c) &&
            globMatchF fuel p' s')
     | none =>
       (match s with
        | [] => false
        | c :: s' => (c = '[') && globMatchF fuel p s'))
  | fuel + 1, c :: p, s =>
    (match s with
     | [] => false
     | c' :: s' => (c = c') && globMatchF fuel p s')

def globMatch (p s : String) : Bool :=
  globMatchF (p.data.length + s.data.length + 1) p.data s.data

/-- A pattern only matches a hidden entry when it itself starts with a
literal dot. -/
def dotOkay (w e : String) : Bool :=
  match e.data, w.data with
  | ec :: _, wc :: _ => !(ec = '.') || (wc = '.')
  | ec :: _, [] => !(ec = '.')
  | [], _ => true

/-- Pathname expansion of one field against the directory entries: a field
with a glob metacharacter is replaced by the sorted matching entries, or
stays literal when nothing matches; other fields are untouched. -/
def expandGlob (entries : List String) (w : String) : List String :=
  if hasGlobChar w then
    let ms := sortStrs (entries.filter (fun e => dotOkay w e && globMatch w e))
    if ms.isEmpty then [w] else ms
  else [w]

/-- The entries pathname expansion matches against: the regular files plus
the `.tmp` subdirectory when it exists. -/
def entriesOf (d : Dir) : List String :=
  names d ++ (match d.tmp with
              | some _ => [".tmp"]
              | none => [])

/-- The fields the unquoted `$f` expands to in command-argument position:
field splitting followed by pathname expansion of each field. -/
def expandF (d : Dir) (f : String) : List String :=
  (splitWs f).flatMap (expandGlob (entriesOf d))

/-- The word list `$(ls)` produces: the listing, field-split on whitespace,
each field then pathname-expanded. -/
def wordsOf (d : Dir) : List String :=
  ((lsNames d).flatMap splitWs).flatMap (expandGlob (entriesOf d))

/-- Strip a literal `.tmp/` prefix from a path, giving the cache-relative
name. -/
def stripTmpSlash (p : String) : Option String :=
  match p.data with
  | '.' :: 't' :: 'm' :: 'p' :: '/' :: rest => some (String.mk rest)
  | _ => none

/-- What `cat` reads at one operand path: a `.tmp/`-prefixed path reads the
cache entry (nothing on a miss or when `.tmp` is no directory, as `cat`
then fails), any other path reads the regular file of that name (nothing
when there is none). -/
def readPath (d : Dir) (p : String) : String :=
  match stripTmpSlash p with
  | some x => (tmpLookup d x).getD ""
  | none => (lookupF d.files p).getD ""

/-- The bytes `cat .tmp/$f` emits: the concatenated reads of the fields of
the composite word (`.tmp/` glued to the first field of `$f`). -/
def catTmp (d : Dir) (f : String) : String :=
  (splitWs (".tmp/" ++ f)).foldl (fun acc p => acc ++ readPath d p) ""

/-- The character `\x7b`. -/
def lbrace : Char := Char.ofNat 123

/-- The character `\x7d`. -/
def rbrace : Char := Char.ofNat 125

/-- Does the list start with the literal four characters `\x7b2,\x7d`
matched by the ERE `\x7b2,}` of the sed command? -/
def startsPat : List Char → Bool
  | a :: b :: c :: d :: _ => a = lbrace && b = '2' && c = ',' && d = rbrace
  | _ => false

/-- `sed -E "s/\x7b2,}//g"` on a single line: delete every occurrence of the
literal string `\x7b2,\x7d`, scanning left to right and resuming after each
deletion (text formed across a deletion point is not re-examined). -/
def sedStrip : List Char → List Char
  | [] => []
  | [a] => [a]
  | [a, b] => [a, b]
  | [a, b, c] => [a, b, c]
  | a :: b :: c :: d :: rest =>
    if a = lbrace && b = '2' && c = ',' && d = rbrace then sedStrip rest
    else a :: sedStrip (b :: c :: d :: rest)

/-- The four characters of the literal string the sed command deletes. -/
def patChars : List Char := [lbrace, '2', ',', rbrace]

/-- Does the literal sed pattern occur anywhere in the list? -/
def occursPat : List Char → Bool
  | [] => false
  | a :: l => startsPat (a :: l) || occursPat l

/-- The minify content pipeline
`tr -d（newline）| tr -d（tab）| sed -E "s/\x7b2,}//g"`:
all newline bytes are deleted, then all tab bytes, then every occurrence of
the literal string `\x7b2,\x7d`.  After the `tr` stages the stream contains
no newline, so sed processes it as one line and, as GNU sed does, appends no
trailing newline to input that lacked one. -/
def transform (s : String) : String :=
  String.mk (sedStrip ((s.data.filter (fun c => !(c = '\n'))).filter
    (fun c => !(c = '\t'))))

/-- `[ ! -d .tmp ] && mkdir .tmp`: when `.tmp` is not a directory, attempt to
create it; `mkdir` fails (and the script continues) when an entry named
`.tmp` already exists as a regular file. -/
def mkdirTmp (d : Dir) : Dir :=
  if d.tmp.isNone && (lookupF d.files ".tmp").isNone then
    { d with tmp := some [] }
  else d

/-- `cp $f .tmp/$f` for the single expanded source field `n`: the copy
lands in the cache only when the destination word splits to a single field
of the form `.tmp/x` (otherwise `cp` has a stray argument and fails), when
`.tmp` is a directory (otherwise ENOTDIR), and when the source exists. -/
def cpToTmp (d : Dir) (n f : String) : Dir :=
  match splitWs (".tmp/" ++ f) with
  | [s1] =>
    (match stripTmpSlash s1, d.tmp, lookupF d.files n with
     | some x, some t, some c => { d with tmp := some (setFile t x c) }
     | _, _, _ => d)
  | _ => d

/-- One iteration of the minify loop body for word `f`:
`if [ -f $f ]; then cp $f .tmp/$f; cat .tmp/$f | tr … | sed … > $f; fi`.
The guard passes only when the unquoted `$f` expands to a single field `n`
naming a regular file (a multi-field expansion is a test syntax error).
Then the `cp` runs (see `cpToTmp`), the `cat` reads what the expanded
composite word `.tmp/$f` now denotes, and the redirection `> $f` — exempt
from field splitting and pathname expansion — truncates the file named
literally `f` and writes the transformed bytes there (sed output for empty
input is empty, so a failed `cat` leaves an emptied file).
A word expanding to *no* field at all (an all-whitespace file name matched
by a pattern) still passes the guard — `[ -f ]` tests the single word `-f`
for nonemptiness — but its `cp` lacks an operand and fails, so only the
truncating redirection takes effect. -/
def minifyStep (d : Dir) (f : String) : Dir :=
  match expandF d f with
  | [] => { d with files := setFile d.files f (transform (catTmp d f)) }
  | [n] =>
    if (lookupF d.files n).isSome then
      let d1 := cpToTmp d n f
      { d1 with files := setFile d1.files f (transform (catTmp d1 f)) }
    else d
  | _ => d

def minifyLoop (d : Dir) : List String → Dir
  | [] => d
  | f :: fs => minifyLoop (minifyStep d f) fs

/-- The body of `minify()` on the directory it `cd`-ed into: create `.tmp`
if absent, then run the loop over the words of `$(ls)` (computed once, after
the `mkdir`). -/
def minifyBody (d : Dir) : Dir :=
  let d1 := mkdirTmp d
  minifyLoop d1 (wordsOf d1)

/-- One iteration of the unminify loop body for word `f`:
`if [ -f $f ]; then cp .tmp/$f $f; continue; fi`.
The guard passes only when the unquoted `$f` expands to a single field `n`
naming a regular file; the copy then overwrites the file `n` with the cache
entry the single-field source word `.tmp/$f` denotes, and fails — leaving
`n` untouched — when the source splits into several fields (stray `cp`
argument), when the cache entry is missing, or when `.tmp` is absent.
A multi-field expansion of `$f` is a test error, and an empty expansion
passes the guard (`[ -f ]` is true) but leaves the `cp` with a single
operand, so it fails; either way nothing happens. -/
def unminifyStep (d : Dir) (f : String) : Dir :=
  match expandF d f with
  | [n] =>
    if (lookupF d.files n).isSome then
      match splitWs (".tmp/" ++ f) with
      | [s1] =>
        (match stripTmpSlash s1 with
         | some x =>
           (match tmpLookup d x with
            | some c => { d with files := setFile d.files n c }
            | none => d)
         | none => d)
      | _ => d
    else d
  | _ => d

def unminifyLoop (d : Dir) : List String → Dir
  | [] => d
  | f :: fs => unminifyLoop (unminifyStep d f) fs

/-- The body of `unminify()` on the directory it `cd`-ed into: run the loop
over the words of `$(ls)`, then `rm -r .tmp/` (which deletes the cache when
present and fails harmlessly when absent). -/
def unminifyBody (d : Dir) : Dir :=
  let d1 := unminifyLoop d (wordsOf d)
  { d1 with tmp := none }

/-! ### The script level: `cd`, `cd -`, and the fixed directory list

The shell state tracks the caller's starting directory, the existing target
directories (keyed by their path as resolved from the starting directory),
the current working directory (`none` = the starting directory) and the
`OLDPWD` variable (`none` = unset). -/

structure Sh where
  startDir : Dir
  dirs : List (String × Dir)
  pwd : Option String
  oldpwd : Option (Option String)
deriving DecidableEq, Repr

def lookupD : List (String × Dir) → String → Option Dir
  | [], _ => none
  | (m, d) :: rest, n => if m = n then some d else lookupD rest n

def setD : List (String × Dir) → String → Dir → List (String × Dir)
  | [], n, v => [(n, v)]
  | (m, d) :: rest, n, v =>
    if m = n then (n, v) :: rest else (m, d) :: setD rest n v

/-- Resolve the relative path `p` against the current working directory. -/
def resolveP (s : Sh) (p : String) : String :=
  match s.pwd with
  | none => p
  | some q => q ++ "/" ++ p

/-- The directory the shell is currently in. -/
def curDir (s : Sh) : Dir :=
  match s.pwd with
  | none => s.startDir
  | some q => (lookupD s.dirs q).getD ⟨[], none⟩

def setCur (s : Sh) (d : Dir) : Sh :=
  match s.pwd with
  | none => { s with startDir := d }
  | some q => { s with dirs := setD s.dirs q d }

/-- A call `minify p` or `unminify p` of one of the shell functions, whose
body (after `cd "$1"`) is `body`.  Faithful to `/bin/sh` without `set -e`:

  * when the target exists, `cd "$1"` succeeds (setting `OLDPWD`), the body
    runs there, and the final `cd -` returns (status 0), so the call's exit
    status — that of its last command — is 0 whatever the body did;
  * when the target does not exist, `cd "$1"` fails but the script carries
    on: the body runs in the directory the shell is already in, and the
    final `cd -` fails (status 1) when `OLDPWD` is unset, otherwise it
    changes to `OLDPWD` (status 0).

The returned number is the call's exit status. -/
def callFn (body : Dir → Dir) (s : Sh) (p : String) : Sh × Nat :=
  let key := resolveP s p
  match lookupD s.dirs key with
  | some d =>
    ({ startDir := s.startDir, dirs := setD s.dirs key (body d),
       pwd := s.pwd, oldpwd := some (some key) }, 0)
  | none =>
    let s1 := setCur s (body (curDir s))
    match s.oldpwd with
    | none => (s1, 1)
    | some p2 => ({ s1 with pwd := p2, oldpwd := some s1.pwd }, 0)

/-- Run the function on each path in turn, collecting the exit statuses. -/
def runCalls (body : Dir → Dir) (s : Sh) : List String → Sh × List Nat
  | [] => (s, [])
  | p :: rest =>
    let r1 := callFn body s p
    let r2 := runCalls body r1.1 rest
    (r2.1, r1.2 :: r2.2)

/-- The fixed directory list hard-coded at the bottom of both scripts. -/
def scriptDirs : List String :=
  ["_layouts", "_layouts/indexes", "_layouts/indexes/category",
   "_layouts/partials"]

/-- Running the whole minify script. -/
def runMinifyScript (s : Sh) : Sh × List Nat :=
  runCalls minifyBody s scriptDirs

/-- Running the whole unminify script. -/
def runUnminifyScript (s : Sh) : Sh × List Nat :=
  runCalls unminifyBody s scriptDirs

/-- The exit status of a whole script run: that of its last command. -/
def scriptExit (r : Sh × List Nat) : Nat := r.2.getLastD 0

/-! ### Well-formedness side conditions -/

/-- A name that survives field splitting intact: nonempty and free of IFS
whitespace, so that it is its own single field. -/
def wsFree (n : String) : Bool :=
  !n.data.isEmpty && n.data.all (fun c => !isWsChar c)

/-- A shell-robust (plain) file name: whitespace-free *and* free of glob
metacharacters, so that the `$(ls)` word list contains it verbatim and
every expansion of `$f` is the identity on it. -/
def plainN (n : String) : Bool :=
  wsFree n && !hasGlobChar n

/-! ### Lemmas about the association lists -/

theorem lookupF_setFile (l : List File) (f : String) (v : String) (n : String) :
    lookupF (setFile l f v) n = if f = n then some v else lookupF l n := by
  induction l with
  | nil => by_cases h : f = n <;> simp [setFile, lookupF, h]
  | cons a rest ih =>
    obtain ⟨m, c⟩ := a
    by_cases hm : m = f
    · subst hm
      by_cases h : m = n <;> simp [setFile, lookupF, h]
    · by_cases h : m = n
      · subst h
        have hf : f ≠ m := fun h' => hm h'.symm
        simp [setFile, lookupF, hm, hf]
      · simp [setFile, lookupF, hm, h, ih]

theorem keys_setFile (l : List File) (f : String) (v : String)
    (h : (lookupF l f).isSome) :
    (setFile l f v).map Prod.fst = l.map Prod.fst := by
  induction l with
  | nil => simp [lookupF] at h
  | cons a rest ih =>
    obtain ⟨m, c⟩ := a
    by_cases hm : m = f
    · simp [setFile, hm]
    · simp [lookupF, hm] at h
      simp [setFile, hm, ih h]

theorem lookupF_isSome_iff_mem (l : List File) (n : String) :
    (lookupF l n).isSome ↔ n ∈ l.map Prod.fst := by
  induction l with
  | nil => simp [lookupF]
  | cons a rest ih =>
    obtain ⟨m, c⟩ := a
    by_cases h : m = n
    · subst h
      simp [lookupF]
    · have hn : n ≠ m := fun h' => h h'.symm
      simp [lookupF, h, ih, hn]

/-! ### Lemmas about field splitting and the `ls` word list -/

theorem splitWsAux_mem_wsFree (l : List Char) (cur : List Char)
    (hc : ∀ c ∈ cur, isWsChar c = false) :
    ∀ w ∈ splitWsAux l cur, wsFree w = true := by
  induction l generalizing cur with
  | nil =>
    intro w hw
    by_cases h : cur.isEmpty
    · simp [splitWsAux, h] at hw
    · simp [splitWsAux, h] at hw
      subst hw
      have hne : cur ≠ [] := by
        intro h'
        simp [h'] at h
      simp [wsFree, hne]
      intro c hcmem
      exact hc c hcmem
  | cons c rest ih =>
    intro w hw
    by_cases h : isWsChar c
    · by_cases h2 : cur.isEmpty
      · simp [splitWsAux, h, h2] at hw
        exact ih [] (by simp) w hw
      · simp [splitWsAux, h, h2] at hw
        rcases hw with hw | hw
        · subst hw
          have hne : cur ≠ [] := by
            intro h'
            simp [h'] at h2
          simp [wsFree, hne]
          intro a hamem
          exact hc a hamem
        · exact ih [] (by simp) w hw
    · simp only [splitWsAux, h, if_false] at hw
      refine ih (c :: cur) ?_ w hw
      intro a ha
      rcases List.mem_cons.mp ha with ha | ha
      · subst ha
        simpa using h
      · exact hc a ha

theorem splitWsAux_chars (l : List Char) (cur : List Char) :
    ∀ w ∈ splitWsAux l cur, ∀ c ∈ w.data, c ∈ l ∨ c ∈ cur := by
  induction l generalizing cur with
  | nil =>
    intro w hw c hc
    by_cases h : cur.isEmpty
    · simp [splitWsAux, h] at hw
    · simp [splitWsAux, h] at hw
      subst hw
      right
      simpa using hc
  | cons a rest ih =>
    intro w hw c hc
    by_cases h : isWsChar a
    · by_cases h2 : cur.isEmpty
      · simp [splitWsAux, h, h2] at hw
        rcases ih [] w hw c hc with h3 | h3
        · exact Or.inl (by simp [h3])
        · simp at h3
      · simp [splitWsAux, h, h2] at hw
        rcases hw with hw | hw
        · subst hw
          right
          simpa using hc
        · rcases ih [] w hw c hc with h3 | h3
          · exact Or.inl (by simp [h3])
          · simp at h3
    · simp only [splitWsAux, h, if_false] at hw
      rcases ih (a :: cur) w hw c hc with h3 | h3
      · exact Or.inl (by simp [h3])
      · rcases List.mem_cons.mp h3 with h4 | h4
        · exact Or.inl (by simp [h4])
        · exact Or.inr h4

theorem splitWs_chars (s : String) :
    ∀ w ∈ splitWs s, ∀ c ∈ w.data, c ∈ s.data := by
  intro w hw c hc
  rcases splitWsAux_chars s.data [] w hw c hc with h | h
  · exact h
  · simp at h

theorem plainN_wsFree (n : String) (h : plainN n = true) : wsFree n = true := by
  rw [plainN, Bool.and_eq_true] at h
  exact h.1

theorem plainN_noGlob (n : String) (h : plainN n = true) :
    hasGlobChar n = false := by
  rw [plainN, Bool.and_eq_true] at h
  simpa using h.2

theorem wsFree_chars (f : String) (h : wsFree f = true) :
    ∀ c ∈ f.data, isWsChar c = false := by
  rw [wsFree, Bool.and_eq_true] at h
  intro c hc
  simpa using (List.all_eq_true.mp h.2) c hc

theorem expandGlob_of_noGlob (es : List String) (w : String)
    (h : hasGlobChar w = false) : expandGlob es w = [w] := by
  simp [expandGlob, h]

theorem flatMap_expandGlob_id (es : List String) (L : List String)
    (h : ∀ w ∈ L, hasGlobChar w = false) : L.flatMap (expandGlob es) = L := by
  induction L with
  | nil => simp
  | cons x xs ih =>
    simp only [List.flatMap_cons]
    rw [expandGlob_of_noGlob es x (h x (by simp)),
      ih (fun w hw => h w (by simp [hw]))]
    simp

theorem splitWsAux_of_wsFree (l : List Char) (cur : List Char)
    (hl : ∀ c ∈ l, isWsChar c = false) :
    splitWsAux l cur =
      if (cur.reverse ++ l).isEmpty then [] else [String.mk (cur.reverse ++ l)] := by
  induction l generalizing cur with
  | nil =>
    by_cases h : cur.isEmpty
    · have : cur = [] := by simpa using h
      simp [splitWsAux, this]
    · have : cur ≠ [] := by
        intro h'
        simp [h'] at h
      simp [splitWsAux, h, this]
  | cons c rest ih =>
    have hcw : isWsChar c = false := hl c (by simp)
    have hrest : ∀ a ∈ rest, isWsChar a = false := fun a ha => hl a (by simp [ha])
    simp only [splitWsAux, hcw, if_false]
    rw [ih (c :: cur) hrest]
    simp

theorem splitWs_single (w : String) (h : wsFree w = true) : splitWs w = [w] := by
  simp [wsFree] at h
  obtain ⟨h1, h2⟩ := h
  rw [splitWs, splitWsAux_of_wsFree w.data [] (by simpa using h2)]
  have hmk : String.mk w.data = w := rfl
  simp [h1, hmk]

theorem flatMap_splitWs_id (L : List String)
    (h : ∀ w ∈ L, wsFree w = true) : L.flatMap splitWs = L := by
  induction L with
  | nil => simp
  | cons x xs ih =>
    simp only [List.flatMap_cons]
    rw [splitWs_single x (h x (by simp)), ih (fun w hw => h w (by simp [hw]))]
    simp

theorem insertStr_perm (s : String) (l : List String) :
    (insertStr s l).Perm (s :: l) := by
  induction l with
  | nil => simp [insertStr]
  | cons x xs ih =>
    by_cases h : strLe s x
    · simp [insertStr, h]
    · simp only [insertStr, h, if_false]
      exact (ih.cons x).trans (List.Perm.swap s x xs)

theorem sortStrs_perm (l : List String) : (sortStrs l).Perm l := by
  induction l with
  | nil => simp [sortStrs]
  | cons x xs ih =>
    exact (insertStr_perm x (sortStrs xs)).trans (ih.cons x)

theorem mem_lsNames (d : Dir) (n : String) :
    n ∈ lsNames d ↔ n ∈ names d ∧ startsDot n = false := by
  rw [lsNames, (sortStrs_perm _).mem_iff, List.mem_filter]
  simp

theorem lsNames_nodup (d : Dir) (h : (names d).Nodup) : (lsNames d).Nodup := by
  exact ((sortStrs_perm _).nodup_iff).mpr (h.filter _)

theorem wordsOf_eq_lsNames (d : Dir)
    (h : ∀ n ∈ lsNames d, plainN n = true) : wordsOf d = lsNames d := by
  rw [wordsOf, flatMap_splitWs_id _ (fun w hw => plainN_wsFree w (h w hw)),
    flatMap_expandGlob_id _ _ (fun w hw => plainN_noGlob w (h w hw))]

theorem mem_expandGlob (es : List String) (w v : String)
    (h : v ∈ expandGlob es w) :
    v = w ∨ (v ∈ es ∧ dotOkay w v = true) := by
  by_cases hg : hasGlobChar w
  · simp only [expandGlob, hg, if_true] at h
    by_cases he :
        (sortStrs (es.filter (fun e => dotOkay w e && globMatch w e))).isEmpty
    · rw [if_pos he] at h
      simp at h
      exact Or.inl h
    · rw [if_neg he] at h
      have hmem := ((sortStrs_perm _).mem_iff).mp h
      have h3 := List.mem_filter.mp hmem
      have h4 := h3.2
      rw [Bool.and_eq_true] at h4
      exact Or.inr ⟨h3.1, h4.1⟩
  · rw [expandGlob_of_noGlob es w (by simpa using hg)] at h
    simp at h
    exact Or.inl h

theorem startsDot_of_dotOkay (w v : String) (hw : startsDot w = false)
    (h : dotOkay w v = true) : startsDot v = false := by
  unfold startsDot at hw ⊢
  unfold dotOkay at h
  cases hv : v.data with
  | nil => rfl
  | cons vc vrest =>
    cases hwd : w.data with
    | nil =>
      rw [hv, hwd] at h
      simpa using h
    | cons wc wrest =>
      rw [hwd] at hw
      rw [hv, hwd] at h
      simp at h hw
      rcases h with h | h
      · simpa using h
      · exact absurd h hw

/-- The fields `$f` expands to, for a word that survives every expansion
verbatim. -/
theorem expandF_plain (d : Dir) (f : String) (h : plainN f = true) :
    expandF d f = [f] := by
  rw [expandF, splitWs_single f (plainN_wsFree f h)]
  simp [expandGlob_of_noGlob _ _ (plainN_noGlob f h)]

theorem string_data_append (s t : String) : (s ++ t).data = s.data ++ t.data :=
  rfl

theorem str_empty_append (s : String) : "" ++ s = s := by
  apply String.ext
  rw [string_data_append]
  simp

theorem splitWs_tmp_append (f : String)
    (h : ∀ c ∈ f.data, isWsChar c = false) :
    splitWs (".tmp/" ++ f) = [".tmp/" ++ f] := by
  have hd : (".tmp/" ++ f).data = '.' :: 't' :: 'm' :: 'p' :: '/' :: f.data := rfl
  have hws : ∀ c ∈ ('.' :: 't' :: 'm' :: 'p' :: '/' :: f.data),
      isWsChar c = false := by
    intro c hc
    rcases List.mem_cons.mp hc with rfl | hc
    · decide
    rcases List.mem_cons.mp hc with rfl | hc
    · decide
    rcases List.mem_cons.mp hc with rfl | hc
    · decide
    rcases List.mem_cons.mp hc with rfl | hc
    · decide
    rcases List.mem_cons.mp hc with rfl | hc
    · decide
    exact h c hc
  rw [splitWs, hd, splitWsAux_of_wsFree _ _ hws]
  simp
  rfl

theorem stripTmpSlash_append (f : String) :
    stripTmpSlash (".tmp/" ++ f) = some f :=
  rfl

theorem catTmp_plain (d : Dir) (f : String)
    (h : ∀ c ∈ f.data, isWsChar c = false) :
    catTmp d f = (tmpLookup d f).getD "" := by
  rw [catTmp, splitWs_tmp_append f h]
  show "" ++ readPath d (".tmp/" ++ f) = _
  rw [str_empty_append]
  simp [readPath, stripTmpSlash_append]

/-! ### Lemmas about the minify loop -/

/-- For a plain word, one minify iteration reduces to: back the file up
into the cache (when `.tmp` is a directory) and rewrite it with the
transformed cache copy — or truncate it when `.tmp` is no directory. -/
theorem minifyStep_plain (d : Dir) (f : String) (hp : plainN f = true) :
    minifyStep d f =
      (match lookupF d.files f, d.tmp with
       | some c, some t =>
         { files := setFile d.files f (transform c),
           tmp := some (setFile t f c) }
       | some _, none => { files := setFile d.files f "", tmp := none }
       | none, _ => d) := by
  have hwc : ∀ c ∈ f.data, isWsChar c = false :=
    wsFree_chars f (plainN_wsFree f hp)
  unfold minifyStep
  rw [expandF_plain d f hp]
  cases hc : lookupF d.files f with
  | none => simp [hc]
  | some c =>
    cases htmp : d.tmp with
    | some t =>
      have hcp : cpToTmp d f f = { d with tmp := some (setFile t f c) } := by
        unfold cpToTmp
        rw [splitWs_tmp_append f hwc]
        show (match stripTmpSlash (".tmp/" ++ f), d.tmp, lookupF d.files f with
              | some x, some t, some c => { d with tmp := some (setFile t x c) }
              | _, _, _ => d) = _
        rw [stripTmpSlash_append, htmp, hc]
      have hcat : catTmp { d with tmp := some (setFile t f c) } f = c := by
        rw [catTmp_plain _ f hwc]
        simp [tmpLookup, lookupF_setFile]
      simp only [hc, Option.isSome_some, if_true, hcp, hcat]
    | none =>
      have hcp : cpToTmp d f f = d := by
        unfold cpToTmp
        rw [splitWs_tmp_append f hwc]
        show (match stripTmpSlash (".tmp/" ++ f), d.tmp, lookupF d.files f with
              | some x, some t, some c => { d with tmp := some (setFile t x c) }
              | _, _, _ => d) = _
        rw [stripTmpSlash_append, htmp]
      have hcat : catTmp d f = "" := by
        rw [catTmp_plain d f hwc]
        simp [tmpLookup, htmp]
      simp only [hc, Option.isSome_some, if_true, hcp, hcat]
      have htr : transform "" = "" := rfl
      rw [htr]
      cases d with
      | mk fs tm =>
        simp at htmp
        rw [htmp]

theorem cpToTmp_files (d : Dir) (n f : String) :
    (cpToTmp d n f).files = d.files := by
  unfold cpToTmp
  split
  · split <;> rfl
  · rfl

theorem cpToTmp_tmp_isSome (d : Dir) (n f : String) :
    (cpToTmp d n f).tmp.isSome = d.tmp.isSome := by
  unfold cpToTmp
  split
  · split
    · next x t c _ h2 _ => simp [h2]
    · rfl
  · rfl

theorem lookupF_minifyStep_ne (d : Dir) (f n : String) (h : f ≠ n) :
    lookupF (minifyStep d f).files n = lookupF d.files n := by
  unfold minifyStep
  split
  · show lookupF (setFile d.files f _) n = _
    rw [lookupF_setFile, if_neg h]
  · split
    · show lookupF (setFile (cpToTmp d _ f).files f _) n = _
      rw [lookupF_setFile, if_neg h, cpToTmp_files]
    · rfl
  · rfl

theorem tmpLookup_minifyStep_ne (d : Dir) (f n : String)
    (hp : plainN f = true) (h : f ≠ n) :
    tmpLookup (minifyStep d f) n = tmpLookup d n := by
  rw [minifyStep_plain d f hp]
  cases hc : lookupF d.files f with
  | none => cases d.tmp <;> simp
  | some c =>
    cases htmp : d.tmp with
    | some t => simp [tmpLookup, lookupF_setFile, h, htmp]
    | none => simp [tmpLookup, htmp]

theorem tmp_isSome_minifyStep (d : Dir) (f : String) :
    (minifyStep d f).tmp.isSome = d.tmp.isSome := by
  unfold minifyStep
  split
  · rfl
  · split
    · show (cpToTmp d _ f).tmp.isSome = _
      rw [cpToTmp_tmp_isSome]
    · rfl
  · rfl

theorem keys_minifyStep (d : Dir) (f : String) (hp : plainN f = true) :
    (minifyStep d f).files.map Prod.fst = d.files.map Prod.fst := by
  rw [minifyStep_plain d f hp]
  cases hc : lookupF d.files f with
  | none => cases d.tmp <;> simp
  | some c =>
    have hs : (lookupF d.files f).isSome := by simp [hc]
    cases htmp : d.tmp with
    | some t => simp [keys_setFile _ _ _ hs]
    | none => simp [keys_setFile _ _ _ hs]

theorem minifyLoop_untouched (ws : List String) (d : Dir) (n : String)
    (h : ∀ w ∈ ws, plainN w = true ∧ w ≠ n) :
    lookupF (minifyLoop d ws).files n = lookupF d.files n ∧
      tmpLookup (minifyLoop d ws) n = tmpLookup d n := by
  induction ws generalizing d with
  | nil => simp [minifyLoop]
  | cons f fs ih =>
    have hf := h f (by simp)
    have hfs : ∀ w ∈ fs, plainN w = true ∧ w ≠ n :=
      fun w hw => h w (by simp [hw])
    rw [minifyLoop]
    refine ⟨?_, ?_⟩
    · rw [(ih (minifyStep d f) hfs).1, lookupF_minifyStep_ne d f n hf.2]
    · rw [(ih (minifyStep d f) hfs).2, tmpLookup_minifyStep_ne d f n hf.1 hf.2]

theorem minifyLoop_tmp_isSome (ws : List String) (d : Dir) :
    (minifyLoop d ws).tmp.isSome = d.tmp.isSome := by
  induction ws generalizing d with
  | nil => simp [minifyLoop]
  | cons f fs ih =>
    rw [minifyLoop, ih, tmp_isSome_minifyStep]

theorem keys_minifyLoop (ws : List String) (d : Dir)
    (hws : ∀ w ∈ ws, plainN w = true) :
    (minifyLoop d ws).files.map Prod.fst = d.files.map Prod.fst := by
  induction ws generalizing d with
  | nil => simp [minifyLoop]
  | cons f fs ih =>
    rw [minifyLoop, ih (minifyStep d f) (fun w hw => hws w (by simp [hw])),
      keys_minifyStep d f (hws f (by simp))]

theorem minifyLoop_formula (ws : List String) (d : Dir)
    (hnd : ws.Nodup) (hwf : ∀ w ∈ ws, plainN w = true)
    (ht : d.tmp.isSome = true) (n : String) :
    lookupF (minifyLoop d ws).files n =
      (if n ∈ ws then (lookupF d.files n).map transform
       else lookupF d.files n) ∧
    tmpLookup (minifyLoop d ws) n =
      (if n ∈ ws ∧ (lookupF d.files n).isSome then lookupF d.files n
       else tmpLookup d n) := by
  induction ws generalizing d with
  | nil => simp [minifyLoop]
  | cons f fs ih =>
    have hfnme : f ∉ fs := (List.nodup_cons.mp hnd).1
    have hnd' : fs.Nodup := (List.nodup_cons.mp hnd).2
    have hwf' : ∀ w ∈ fs, plainN w = true := fun w hw => hwf w (by simp [hw])
    have hwff : plainN f = true := hwf f (by simp)
    have ht1 : (minifyStep d f).tmp.isSome = true := by
      rw [tmp_isSome_minifyStep]; exact ht
    rw [minifyLoop]
    by_cases hn : f = n
    · subst hn
      have huntouched := minifyLoop_untouched fs (minifyStep d f) f
        (fun w hw => ⟨hwf' w hw, fun he => hfnme (he ▸ hw)⟩)
      obtain ⟨t, htt⟩ := Option.isSome_iff_exists.mp ht
      cases hc : lookupF d.files f with
      | none =>
        have hstep : minifyStep d f = d := by
          rw [minifyStep_plain d f hwff]
          simp [hc]
        rw [hstep] at huntouched ⊢
        rw [huntouched.1, huntouched.2]
        simp [hc]
      | some c =>
        have hstep : minifyStep d f =
            { files := setFile d.files f (transform c),
              tmp := some (setFile t f c) } := by
          rw [minifyStep_plain d f hwff]
          simp [hc, htt]
        rw [hstep] at huntouched ⊢
        rw [huntouched.1, huntouched.2]
        simp [lookupF_setFile, tmpLookup, hc]
    · have hstep1 : lookupF (minifyStep d f).files n = lookupF d.files n :=
        lookupF_minifyStep_ne d f n hn
      have hstep2 : tmpLookup (minifyStep d f) n = tmpLookup d n :=
        tmpLookup_minifyStep_ne d f n hwff hn
      have hnn : n ≠ f := fun h => hn h.symm
      rw [(ih (minifyStep d f) hnd' hwf' ht1).1,
        (ih (minifyStep d f) hnd' hwf' ht1).2, hstep1, hstep2]
      constructor <;> simp [List.mem_cons, hnn]

/-- When `.tmp` is not a directory (a regular file of that name blocked the
`mkdir`), every processed file is simply truncated to empty: the `cp` and
the `cat` fail, and the redirection writes the transform of nothing. -/
theorem minifyLoop_none_formula (ws : List String) (d : Dir)
    (hwf : ∀ w ∈ ws, plainN w = true) (ht : d.tmp = none) (n : String) :
    lookupF (minifyLoop d ws).files n =
      (if n ∈ ws ∧ (lookupF d.files n).isSome then some ""
       else lookupF d.files n) := by
  induction ws generalizing d with
  | nil => simp [minifyLoop]
  | cons f fs ih =>
    have hwff : plainN f = true := hwf f (by simp)
    have hwf' : ∀ w ∈ fs, plainN w = true := fun w hw => hwf w (by simp [hw])
    have ht1 : (minifyStep d f).tmp = none := by
      have h2 := tmp_isSome_minifyStep d f
      rw [ht] at h2
      exact Option.not_isSome_iff_eq_none.mp (by simp [h2])
    rw [minifyLoop]
    by_cases hn : f = n
    · subst hn
      rw [ih (minifyStep d f) hwf' ht1]
      cases hc : lookupF d.files f with
      | none =>
        have hstep : minifyStep d f = d := by
          rw [minifyStep_plain d f hwff]
          simp [hc]
        rw [hstep, hc]
        simp
      | some c =>
        have hstep : minifyStep d f =
            { files := setFile d.files f "", tmp := none } := by
          rw [minifyStep_plain d f hwff]
          simp [hc, ht]
        rw [hstep]
        simp [lookupF_setFile, hc]
    · have hnn : n ≠ f := fun h => hn h.symm
      rw [ih (minifyStep d f) hwf' ht1, lookupF_minifyStep_ne d f n hn]
      simp [List.mem_cons, hnn]

/-! ### Lemmas about the unminify loop -/

/-- For a plain word, one unminify iteration reduces to: overwrite the file
with its cache entry when both exist. -/
theorem unminifyStep_plain (d : Dir) (f : String) (hp : plainN f = true) :
    unminifyStep d f =
      (match lookupF d.files f, d.tmp with
       | some _, some t =>
         (match lookupF t f with
          | some c => { d with files := setFile d.files f c }
          | none => d)
       | _, _ => d) := by
  have hwc : ∀ c ∈ f.data, isWsChar c = false :=
    wsFree_chars f (plainN_wsFree f hp)
  unfold unminifyStep
  rw [expandF_plain d f hp, splitWs_tmp_append f hwc]
  show (if (lookupF d.files f).isSome = true then
        (match stripTmpSlash (".tmp/" ++ f) with
         | some x =>
           (match tmpLookup d x with
            | some c => { d with files := setFile d.files f c }
            | none => d)
         | none => d)
        else d) = _
  rw [stripTmpSlash_append]
  cases hc : lookupF d.files f with
  | none => cases d.tmp <;> simp [hc]
  | some c =>
    cases htmp : d.tmp with
    | some t => simp [hc, tmpLookup, htmp]
    | none => simp [hc, tmpLookup, htmp]

theorem unminifyStep_tmp (d : Dir) (f : String) :
    (unminifyStep d f).tmp = d.tmp := by
  unfold unminifyStep
  split
  · split
    · split
      · split
        · split <;> rfl
        · rfl
      · rfl
    · rfl
  · rfl

theorem tmpLookup_unminifyStep (d : Dir) (f n : String) :
    tmpLookup (unminifyStep d f) n = tmpLookup d n := by
  unfold tmpLookup
  rw [unminifyStep_tmp]

theorem lookupF_unminifyStep_ne (d : Dir) (f n : String)
    (hp : plainN f = true) (h : f ≠ n) :
    lookupF (unminifyStep d f).files n = lookupF d.files n := by
  rw [unminifyStep_plain d f hp]
  cases hc : lookupF d.files f with
  | none => cases d.tmp <;> simp
  | some c =>
    cases htmp : d.tmp with
    | some t => cases hct : lookupF t f <;> simp [lookupF_setFile, h, hct]
    | none => simp

theorem unminifyLoop_tmp (ws : List String) (d : Dir) :
    (unminifyLoop d ws).tmp = d.tmp := by
  induction ws generalizing d with
  | nil => simp [unminifyLoop]
  | cons f fs ih =>
    rw [unminifyLoop, ih, unminifyStep_tmp]

theorem unminifyLoop_untouched (ws : List String) (d : Dir) (n : String)
    (h : ∀ w ∈ ws, plainN w = true ∧ w ≠ n) :
    lookupF (unminifyLoop d ws).files n = lookupF d.files n := by
  induction ws generalizing d with
  | nil => simp [unminifyLoop]
  | cons f fs ih =>
    have hf := h f (by simp)
    have hfs : ∀ w ∈ fs, plainN w = true ∧ w ≠ n :=
      fun w hw => h w (by simp [hw])
    rw [unminifyLoop, ih (unminifyStep d f) hfs,
      lookupF_unminifyStep_ne d f n hf.1 hf.2]

theorem unminifyLoop_formula (ws : List String) (d : Dir)
    (hnd : ws.Nodup) (hwf : ∀ w ∈ ws, plainN w = true) (n : String) :
    lookupF (unminifyLoop d ws).files n =
      (if n ∈ ws ∧ (lookupF d.files n).isSome ∧ (tmpLookup d n).isSome
       then tmpLookup d n else lookupF d.files n) := by
  induction ws generalizing d with
  | nil => simp [unminifyLoop]
  | cons f fs ih =>
    have hfnme : f ∉ fs := (List.nodup_cons.mp hnd).1
    have hnd' : fs.Nodup := (List.nodup_cons.mp hnd).2
    have hwf' : ∀ w ∈ fs, plainN w = true := fun w hw => hwf w (by simp [hw])
    have hwff : plainN f = true := hwf f (by simp)
    rw [unminifyLoop]
    by_cases hn : f = n
    · subst hn
      have huntouched := unminifyLoop_untouched fs (unminifyStep d f) f
        (fun w hw => ⟨hwf' w hw, fun he => hfnme (he ▸ hw)⟩)
      rw [huntouched]
      cases hc : lookupF d.files f with
      | none =>
        have hstep : unminifyStep d f = d := by
          rw [unminifyStep_plain d f hwff]
          cases d.tmp <;> simp [hc]
        rw [hstep]
        simp [hc]
      | some c =>
        cases htmp : d.tmp with
        | none =>
          have hstep : unminifyStep d f = d := by
            rw [unminifyStep_plain d f hwff]
            simp [hc, htmp]
          rw [hstep]
          simp [hc, tmpLookup, htmp]
        | some t =>
          cases hct : lookupF t f with
          | none =>
            have hstep : unminifyStep d f = d := by
              rw [unminifyStep_plain d f hwff]
              simp [hc, htmp, hct]
            rw [hstep]
            simp [hc, tmpLookup, htmp, hct]
          | some v =>
            have hstep : unminifyStep d f =
                { d with files := setFile d.files f v } := by
              rw [unminifyStep_plain d f hwff]
              simp [hc, htmp, hct]
            rw [hstep]
            simp [lookupF_setFile, tmpLookup, htmp, hct, hc]
    · have hnn : n ≠ f := fun h => hn h.symm
      rw [ih (unminifyStep d f) hnd' hwf',
        lookupF_unminifyStep_ne d f n hwff hn, tmpLookup_unminifyStep]
      simp [List.mem_cons, hnn]

/-! ### Lemmas about the sed/tr content transform -/

theorem sedStrip_cons4_pos (a b c d : Char) (rest : List Char)
    (h : a = lbrace ∧ b = '2' ∧ c = ',' ∧ d = rbrace) :
    sedStrip (a :: b :: c :: d :: rest) = sedStrip rest := by
  rw [sedStrip, if_pos]
  simp [h.1, h.2.1, h.2.2.1, h.2.2.2]

theorem sedStrip_cons4_neg (a b c d : Char) (rest : List Char)
    (h : ¬(a = lbrace ∧ b = '2' ∧ c = ',' ∧ d = rbrace)) :
    sedStrip (a :: b :: c :: d :: rest) = a :: sedStrip (b :: c :: d :: rest) := by
  rw [sedStrip, if_neg]
  simpa [Bool.and_eq_true, decide_eq_true_eq, and_assoc] using h

theorem sedStrip_subset (l : List Char) : ∀ x ∈ sedStrip l, x ∈ l := by
  induction l using sedStrip.induct with
  | case1 => simp [sedStrip]
  | case2 a => simp [sedStrip]
  | case3 a b => simp [sedStrip]
  | case4 a b c => simp [sedStrip]
  | case5 a b c d rest hcond ih =>
    intro x hx
    rw [sedStrip, if_pos hcond] at hx
    simp [ih x hx]
  | case6 a b c d rest hcond ih =>
    intro x hx
    rw [sedStrip, if_neg hcond] at hx
    rcases List.mem_cons.mp hx with h | h
    · simp [h]
    · have := ih x h
      simp at this ⊢
      tauto

/-- The minify pipeline only ever deletes characters, and it deletes every
newline and every tab, so its output contains neither. -/
theorem transform_no_nl_tab (s : String) :
    '\n' ∉ (transform s).data ∧ '\t' ∉ (transform s).data := by
  constructor <;> intro hmem <;>
    · have h2 := sedStrip_subset _ _ hmem
      simp at h2

theorem sedStrip_of_no_occurrence (l : List Char) (h : occursPat l = false) :
    sedStrip l = l := by
  induction l using sedStrip.induct with
  | case1 => simp [sedStrip]
  | case2 a => simp [sedStrip]
  | case3 a b => simp [sedStrip]
  | case4 a b c => simp [sedStrip]
  | case5 a b c d rest hcond ih =>
    exfalso
    rw [occursPat] at h
    have : startsPat (a :: b :: c :: d :: rest) = true := by
      simpa [startsPat] using hcond
    simp [this] at h
  | case6 a b c d rest hcond ih =>
    rw [occursPat, Bool.or_eq_false_iff] at h
    rw [sedStrip, if_neg hcond, ih h.2]

theorem startsPat_append_pat (m : List Char) :
    startsPat (patChars ++ m) = true := by
  simp [patChars, startsPat]

theorem occursPat_cons_false (a : Char) (l : List Char)
    (h : occursPat (a :: l) = false) :
    startsPat (a :: l) = false ∧ occursPat l = false := by
  rw [occursPat, Bool.or_eq_false_iff] at h
  exact h

/-- Removal of the leftmost occurrence: when `x` is free of the pattern, the
sed pass over `x ++ pattern ++ m` keeps `x`, deletes that occurrence, and
resumes on `m`.  (The pattern cannot straddle the boundary because no proper
prefix of `\x7b2,\x7d` is also one of its suffixes.) -/
theorem sedStrip_append_pat (x : List Char) (m : List Char)
    (h : occursPat x = false) :
    sedStrip (x ++ patChars ++ m) = x ++ sedStrip m := by
  induction x with
  | nil =>
    show sedStrip (lbrace :: '2' :: ',' :: rbrace :: m) = sedStrip m
    exact sedStrip_cons4_pos _ _ _ _ _ ⟨rfl, rfl, rfl, rfl⟩
  | cons a x' ih =>
    have h' : occursPat x' = false := (occursPat_cons_false a x' h).2
    have hsp : startsPat (a :: x') = false := (occursPat_cons_false a x' h).1
    have hih := ih h'
    rcases x' with _ | ⟨b, x''⟩
    · show sedStrip (a :: lbrace :: '2' :: ',' :: rbrace :: m) = a :: sedStrip m
      rw [sedStrip_cons4_neg a lbrace '2' ','
        (rbrace :: m) (by intro hc; exact absurd hc.2.1 (by decide))]
      exact congrArg (a :: ·) (sedStrip_cons4_pos _ _ _ _ _ ⟨rfl, rfl, rfl, rfl⟩)
    rcases x'' with _ | ⟨c, x'''⟩
    · show sedStrip (a :: b :: lbrace :: '2' :: ',' :: rbrace :: m)
        = a :: b :: sedStrip m
      rw [sedStrip_cons4_neg a b lbrace '2' (',' :: rbrace :: m)
        (by intro hc; exact absurd hc.2.2.1 (by decide))]
      exact congrArg (a :: ·) hih
    rcases x''' with _ | ⟨d, x4⟩
    · show sedStrip (a :: b :: c :: lbrace :: '2' :: ',' :: rbrace :: m)
        = a :: b :: c :: sedStrip m
      rw [sedStrip_cons4_neg a b c lbrace ('2' :: ',' :: rbrace :: m)
        (by intro hc; exact absurd hc.2.2.2 (by decide))]
      exact congrArg (a :: ·) hih
    · show sedStrip (a :: b :: c :: d :: (x4 ++ patChars ++ m))
        = a :: b :: c :: d :: x4 ++ sedStrip m
      rw [sedStrip_cons4_neg a b c d (x4 ++ patChars ++ m)
        (by simpa [startsPat, Bool.and_eq_true, decide_eq_true_eq, and_assoc]
          using hsp)]
      exact congrArg (a :: ·) hih

/-! ### Body-level specifications -/

theorem mkdirTmp_files (d : Dir) : (mkdirTmp d).files = d.files := by
  unfold mkdirTmp
  split <;> rfl

theorem mkdirTmp_of_none (d : Dir) (h1 : d.tmp = none)
    (h3 : lookupF d.files ".tmp" = none) :
    mkdirTmp d = { d with tmp := some [] } := by
  simp [mkdirTmp, h1, h3]

theorem mkdirTmp_of_isSome (d : Dir) (h : d.tmp.isSome) : mkdirTmp d = d := by
  unfold mkdirTmp
  cases htmp : d.tmp with
  | none => rw [htmp] at h; simp at h
  | some t => simp

theorem lsNames_mkdirTmp (d : Dir) : lsNames (mkdirTmp d) = lsNames d := by
  unfold lsNames names
  rw [mkdirTmp_files]

theorem lsNames_plain (d : Dir)
    (h4 : ∀ n ∈ names d, startsDot n = false → plainN n = true) :
    ∀ w ∈ lsNames d, plainN w = true := by
  intro w hw
  obtain ⟨hmem, hdot⟩ := (mem_lsNames d w).mp hw
  exact h4 w hmem hdot

theorem wordsOf_mkdirTmp_plain (d : Dir)
    (h4 : ∀ n ∈ names d, startsDot n = false → plainN n = true) :
    wordsOf (mkdirTmp d) = lsNames d := by
  have h2 : ∀ n ∈ lsNames (mkdirTmp d), plainN n = true := by
    rw [lsNames_mkdirTmp]
    exact lsNames_plain d h4
  rw [wordsOf_eq_lsNames (mkdirTmp d) h2, lsNames_mkdirTmp]

theorem names_minifyBody (d : Dir)
    (h4 : ∀ n ∈ names d, startsDot n = false → plainN n = true) :
    names (minifyBody d) = names d := by
  have h5 : minifyBody d = minifyLoop (mkdirTmp d) (wordsOf (mkdirTmp d)) := rfl
  unfold names
  rw [h5, wordsOf_mkdirTmp_plain d h4,
    keys_minifyLoop (lsNames d) (mkdirTmp d) (lsNames_plain d h4),
    mkdirTmp_files]

/-- What a fresh minify (no pre-existing `.tmp`) does to each name: listed
names (non-hidden file names, whitespace-free by hypothesis) are rewritten
with the transformed content and backed up in the cache verbatim; everything
else is untouched and the cache holds nothing else. -/
theorem minifyBody_spec (d : Dir) (h1 : d.tmp = none)
    (h2 : (names d).Nodup) (h3 : lookupF d.files ".tmp" = none)
    (h4 : ∀ n ∈ names d, startsDot n = false → plainN n = true) (n : String) :
    lookupF (minifyBody d).files n =
      (if n ∈ lsNames d then (lookupF d.files n).map transform
       else lookupF d.files n) ∧
    tmpLookup (minifyBody d) n =
      (if n ∈ lsNames d then lookupF d.files n else none) := by
  have hmk := mkdirTmp_of_none d h1 h3
  have hws : wordsOf (mkdirTmp d) = lsNames d := wordsOf_mkdirTmp_plain d h4
  have hform := minifyLoop_formula (lsNames d) (mkdirTmp d)
    (lsNames_nodup d h2) (lsNames_plain d h4)
    (by rw [hmk]; rfl) n
  rw [minifyBody, hws]
  have hfiles : (mkdirTmp d).files = d.files := mkdirTmp_files d
  rw [hfiles] at hform
  have htl : tmpLookup (mkdirTmp d) n = none := by
    rw [hmk]
    rfl
  rw [htl] at hform
  refine ⟨hform.1, ?_⟩
  rw [hform.2]
  by_cases hmem : n ∈ lsNames d
  · have hsome : (lookupF d.files n).isSome := by
      rw [lookupF_isSome_iff_mem]
      exact ((mem_lsNames d n).mp hmem).1
    simp [hmem, hsome]
  · simp [hmem]

/-- What a re-minify (`.tmp` already a directory) does: listed names are
again rewritten with the transformed content, and their cache entries are
overwritten with the content current at the start of this run. -/
theorem minifyBody_spec_resume (d : Dir) (h1 : d.tmp.isSome)
    (h2 : (names d).Nodup)
    (h4 : ∀ n ∈ names d, startsDot n = false → plainN n = true) (n : String) :
    lookupF (minifyBody d).files n =
      (if n ∈ lsNames d then (lookupF d.files n).map transform
       else lookupF d.files n) ∧
    tmpLookup (minifyBody d) n =
      (if n ∈ lsNames d then lookupF d.files n else tmpLookup d n) := by
  have hmk := mkdirTmp_of_isSome d h1
  have hws : wordsOf (mkdirTmp d) = lsNames d := wordsOf_mkdirTmp_plain d h4
  have hform := minifyLoop_formula (lsNames d) (mkdirTmp d)
    (lsNames_nodup d h2) (lsNames_plain d h4) (by rw [hmk]; exact h1) n
  rw [minifyBody, hws, hmk] at *
  refine ⟨hform.1, ?_⟩
  rw [hform.2]
  by_cases hmem : n ∈ lsNames d
  · have hsome : (lookupF d.files n).isSome := by
      rw [lookupF_isSome_iff_mem]
      exact ((mem_lsNames d n).mp hmem).1
    simp [hmem, hsome]
  · simp [hmem]

theorem tmpLookup_mkdirTmp (d : Dir) (n : String) :
    tmpLookup (mkdirTmp d) n = tmpLookup d n := by
  unfold mkdirTmp
  split
  · next h =>
    have hnone : d.tmp = none :=
      Option.isNone_iff_eq_none.mp (Bool.and_elim_left h)
    simp [tmpLookup, hnone, lookupF]
  · rfl

theorem tmp_isSome_minifyBody (d : Dir)
    (h : d.tmp = none → lookupF d.files ".tmp" = none) :
    (minifyBody d).tmp.isSome = true := by
  rw [minifyBody, minifyLoop_tmp_isSome]
  cases htmp : d.tmp with
  | none => rw [mkdirTmp_of_none d htmp (h htmp)]; rfl
  | some t => rw [mkdirTmp_of_isSome d (by rw [htmp]; rfl), htmp]; rfl

theorem lsNames_minifyBody (d : Dir)
    (h4 : ∀ n ∈ names d, startsDot n = false → plainN n = true) :
    lsNames (minifyBody d) = lsNames d := by
  unfold lsNames
  rw [names_minifyBody d h4]

theorem unminifyStep_of_tmp_none (d : Dir) (f : String) (h : d.tmp = none) :
    unminifyStep d f = d := by
  unfold unminifyStep
  split
  · split
    · split
      · split
        · split
          · next c heq =>
            simp [tmpLookup, h] at heq
          · rfl
        · rfl
      · rfl
    · rfl
  · rfl

theorem unminifyLoop_of_tmp_none (ws : List String) (d : Dir)
    (h : d.tmp = none) : unminifyLoop d ws = d := by
  induction ws with
  | nil => rfl
  | cons f fs ih =>
    rw [unminifyLoop, unminifyStep_of_tmp_none d f h, ih]

/-- What unminify does to each name: a listed name with a cache entry is
overwritten with that entry, everything else is untouched; the cache
directory is removed. -/
theorem unminifyBody_spec (d : Dir) (h2 : (names d).Nodup)
    (h4 : ∀ n ∈ names d, startsDot n = false → plainN n = true) (n : String) :
    lookupF (unminifyBody d).files n =
      (if n ∈ lsNames d ∧ (tmpLookup d n).isSome then tmpLookup d n
       else lookupF d.files n) ∧
    (unminifyBody d).tmp = none := by
  have hws : wordsOf d = lsNames d :=
    wordsOf_eq_lsNames d (lsNames_plain d h4)
  have hform := unminifyLoop_formula (lsNames d) d
    (lsNames_nodup d h2) (lsNames_plain d h4) n
  rw [unminifyBody, hws]
  refine ⟨?_, rfl⟩
  show lookupF (unminifyLoop d (lsNames d)).files n = _
  rw [hform]
  by_cases hmem : n ∈ lsNames d
  · have hsome : (lookupF d.files n).isSome := by
      rw [lookupF_isSome_iff_mem]
      exact ((mem_lsNames d n).mp hmem).1
    simp [hmem, hsome]
  · simp [hmem]

theorem mkdirTmp_tmp_none (d : Dir) (h : (mkdirTmp d).tmp = none) :
    mkdirTmp d = d := by
  by_cases hc : (d.tmp.isNone && (lookupF d.files ".tmp").isNone) = true
  · exfalso
    have h2 : mkdirTmp d = { d with tmp := some [] } := by
      rw [mkdirTmp, if_pos hc]
    rw [h2] at h
    simp at h
  · rw [mkdirTmp, if_neg hc]

/-- A name outside the listing is untouched by the minify body (with plain
visible names, the loop only ever processes listed names). -/
theorem minifyBody_lookup_hidden (d : Dir)
    (h4 : ∀ n ∈ names d, startsDot n = false → plainN n = true)
    (n : String) (hnm : n ∉ lsNames d) :
    lookupF (minifyBody d).files n = lookupF d.files n := by
  have h5 : minifyBody d = minifyLoop (mkdirTmp d) (wordsOf (mkdirTmp d)) := rfl
  rw [h5, wordsOf_mkdirTmp_plain d h4,
    (minifyLoop_untouched (lsNames d) (mkdirTmp d) n
      (fun w hw => ⟨lsNames_plain d h4 w hw, fun he => hnm (he ▸ hw)⟩)).1,
    mkdirTmp_files]

/-- A listed file ends up holding either the transform of its old content
(the normal case) or nothing (when a regular file named `.tmp` blocked the
`mkdir` and the pipeline ran with a failed `cat`). -/
theorem minifyBody_lookup_visible (d : Dir) (h2 : (names d).Nodup)
    (h4 : ∀ n ∈ names d, startsDot n = false → plainN n = true)
    (n c0 : String) (hmem : n ∈ lsNames d)
    (hc0 : lookupF d.files n = some c0) :
    lookupF (minifyBody d).files n = some (transform c0) ∨
      lookupF (minifyBody d).files n = some "" := by
  have h5 : minifyBody d = minifyLoop (mkdirTmp d) (wordsOf (mkdirTmp d)) := rfl
  rw [h5, wordsOf_mkdirTmp_plain d h4]
  cases htm : (mkdirTmp d).tmp with
  | some t =>
    left
    have hform := (minifyLoop_formula (lsNames d) (mkdirTmp d)
      (lsNames_nodup d h2) (lsNames_plain d h4) (by rw [htm]; rfl) n).1
    rw [hform, mkdirTmp_files]
    simp [hmem, hc0]
  | none =>
    right
    have hmk : mkdirTmp d = d := mkdirTmp_tmp_none d htm
    have hdt : d.tmp = none := by
      rw [← hmk]
      exact htm
    rw [hmk, minifyLoop_none_formula (lsNames d) d (lsNames_plain d h4) hdt n]
    simp [hmem, hc0]

/-! ### Lemmas for the frame property of hidden entries

Under the hypothesis that every visible name is merely whitespace-free
(glob metacharacters allowed), every loop word is still whitespace-free and
does not start with a dot: a pattern built from a visible name can never
match a hidden entry.  Such a word's step never touches a dot-prefixed
name: the redirection writes the word itself, the cache copy lands under
the word itself, and the `cp` destination of unminify is a match of the
word, which is again not dot-prefixed. -/

theorem wordsOf_wsfree_notdot (d : Dir)
    (h4 : ∀ m ∈ names d, startsDot m = false → wsFree m = true) :
    ∀ w ∈ wordsOf d, wsFree w = true ∧ startsDot w = false := by
  intro w hw
  rw [wordsOf,
    flatMap_splitWs_id _ (fun u hu => h4 u ((mem_lsNames d u).mp hu).1
      ((mem_lsNames d u).mp hu).2)] at hw
  rw [List.mem_flatMap] at hw
  obtain ⟨u, hu, hwu⟩ := hw
  have hud : startsDot u = false := ((mem_lsNames d u).mp hu).2
  have huw : wsFree u = true :=
    h4 u ((mem_lsNames d u).mp hu).1 hud
  rcases mem_expandGlob _ _ _ hwu with rfl | ⟨hmem, hok⟩
  · exact ⟨huw, hud⟩
  · have hwd : startsDot w = false := startsDot_of_dotOkay u w hud hok
    rw [entriesOf] at hmem
    rcases List.mem_append.mp hmem with hmem | hmem
    · exact ⟨h4 w hmem hwd, hwd⟩
    · exfalso
      cases htm : d.tmp with
      | none => rw [htm] at hmem; simp at hmem
      | some t =>
        rw [htm] at hmem
        simp at hmem
        rw [hmem] at hwd
        simp [startsDot] at hwd

theorem minifyStep_notdot (d : Dir) (f n : String) (hf : wsFree f = true)
    (hfd : startsDot f = false) (hn : startsDot n = true) :
    lookupF (minifyStep d f).files n = lookupF d.files n ∧
      tmpLookup (minifyStep d f) n = tmpLookup d n := by
  have hfn : f ≠ n := by
    intro e
    rw [e, hn] at hfd
    simp at hfd
  refine ⟨lookupF_minifyStep_ne d f n hfn, ?_⟩
  have hwc : ∀ c ∈ f.data, isWsChar c = false := wsFree_chars f hf
  unfold minifyStep
  split
  · rfl
  · split
    · show tmpLookup (cpToTmp d _ f) n = tmpLookup d n
      unfold cpToTmp
      rw [splitWs_tmp_append f hwc]
      show tmpLookup
        (match stripTmpSlash (".tmp/" ++ f), d.tmp, lookupF d.files _ with
         | some x, some t, some c => { d with tmp := some (setFile t x c) }
         | _, _, _ => d) n = tmpLookup d n
      rw [stripTmpSlash_append]
      cases htm : d.tmp with
      | none => cases lookupF d.files _ <;> rfl
      | some t =>
        cases hcf : lookupF d.files _ with
        | none => rfl
        | some c => simp [tmpLookup, lookupF_setFile, hfn, htm]
    · rfl
  · rfl

theorem unminifyStep_notdot (d : Dir) (f n : String) (hf : wsFree f = true)
    (hfd : startsDot f = false) (hn : startsDot n = true) :
    lookupF (unminifyStep d f).files n = lookupF d.files n := by
  unfold unminifyStep
  split
  · next m hm =>
    have hmm : m ∈ expandF d f := by
      rw [hm]
      simp
    rw [expandF, splitWs_single f hf, List.flatMap_cons, List.flatMap_nil,
      List.append_nil] at hmm
    have hmd : startsDot m = false := by
      rcases mem_expandGlob _ _ _ hmm with rfl | ⟨_, hok⟩
      · exact hfd
      · exact startsDot_of_dotOkay f m hfd hok
    have hmn : m ≠ n := by
      intro e
      rw [e, hn] at hmd
      simp at hmd
    split
    · split
      · split
        · split
          · simp [lookupF_setFile, hmn]
          · rfl
        · rfl
      · rfl
    · rfl
  · rfl

theorem minifyLoop_notdot (ws : List String) (d : Dir) (n : String)
    (hws : ∀ w ∈ ws, wsFree w = true ∧ startsDot w = false)
    (hn : startsDot n = true) :
    lookupF (minifyLoop d ws).files n = lookupF d.files n ∧
      tmpLookup (minifyLoop d ws) n = tmpLookup d n := by
  induction ws generalizing d with
  | nil => simp [minifyLoop]
  | cons f fs ih =>
    have hf := hws f (by simp)
    have hfs : ∀ w ∈ fs, wsFree w = true ∧ startsDot w = false :=
      fun w hw => hws w (by simp [hw])
    have hstep := minifyStep_notdot d f n hf.1 hf.2 hn
    rw [minifyLoop]
    exact ⟨((ih (minifyStep d f) hfs).1).trans hstep.1,
      ((ih (minifyStep d f) hfs).2).trans hstep.2⟩

theorem unminifyLoop_notdot (ws : List String) (d : Dir) (n : String)
    (hws : ∀ w ∈ ws, wsFree w = true ∧ startsDot w = false)
    (hn : startsDot n = true) :
    lookupF (unminifyLoop d ws).files n = lookupF d.files n := by
  induction ws generalizing d with
  | nil => simp [unminifyLoop]
  | cons f fs ih =>
    have hf := hws f (by simp)
    have hfs : ∀ w ∈ fs, wsFree w = true ∧ startsDot w = false :=
      fun w hw => hws w (by simp [hw])
    rw [unminifyLoop, ih (unminifyStep d f) hfs,
      unminifyStep_notdot d f n hf.1 hf.2 hn]

/-! ### The claims -/

/-- **C1, counterexample.**  The round-trip law fails on a directory that
contains only regular files: with files `a` and `a b`, the word list of
`$(ls)` is `a`, `a`, `b`, so `a` is processed twice by the minify loop and
the second pass overwrites the cached original of `a` with its
already-minified content; after restore, `a` does not hold its original
`"x\ny"` any more. -/
theorem c1_cex :
    lookupF (unminifyBody (minifyBody
        (Dir.mk [("a", "x\ny"), ("a b", "z")] none))).files "a" ≠
      lookupF (Dir.mk [("a", "x\ny"), ("a b", "z")] none).files "a" := by
  decide

/-- **C1, amended.**  The round-trip law does hold for a directory of
regular files none of whose visible names contains whitespace or a glob
metacharacter (and with no entry named `.tmp`, the reserved cache name):
running minify and then unminify restores every file's content exactly, and
removes the cache. -/
theorem c1_roundtrip (d : Dir) (h1 : d.tmp = none)
    (h2 : (names d).Nodup) (h3 : lookupF d.files ".tmp" = none)
    (h4 : ∀ n ∈ names d, startsDot n = false → plainN n = true) (n : String) :
    lookupF (unminifyBody (minifyBody d)).files n = lookupF d.files n ∧
      (unminifyBody (minifyBody d)).tmp = none := by
  have h2m : (names (minifyBody d)).Nodup := by
    rw [names_minifyBody d h4]; exact h2
  have h4m : ∀ n ∈ names (minifyBody d), startsDot n = false → plainN n = true := by
    rw [names_minifyBody d h4]; exact h4
  have hspec := minifyBody_spec d h1 h2 h3 h4 n
  have huspec := unminifyBody_spec (minifyBody d) h2m h4m n
  rw [lsNames_minifyBody d h4] at huspec
  refine ⟨?_, huspec.2⟩
  rw [huspec.1]
  by_cases hmem : n ∈ lsNames d
  · have hsome : (lookupF d.files n).isSome := by
      rw [lookupF_isSome_iff_mem]
      exact ((mem_lsNames d n).mp hmem).1
    rw [hspec.2, if_pos hmem]
    simp [hmem, hsome]
  · rw [hspec.2, if_neg hmem]
    simp only [Option.isSome_none, Bool.false_eq_true, and_false, if_false]
    rw [hspec.1, if_neg hmem]

/-- **C1, witness.**  The round trip on the directory holding `a.html` with
content `"<p>\n\thello\n</p>"` restores that content and removes the cache. -/
theorem c1_witness :
    lookupF (unminifyBody (minifyBody
        (Dir.mk [("a.html", "<p>\n\thello\n</p>")] none))).files "a.html" =
      lookupF (Dir.mk [("a.html", "<p>\n\thello\n</p>")] none).files "a.html" ∧
    (unminifyBody (minifyBody
        (Dir.mk [("a.html", "<p>\n\thello\n</p>")] none))).tmp = none :=
  c1_roundtrip (Dir.mk [("a.html", "<p>\n\thello\n</p>")] none)
    (by decide) (by decide) (by decide) (by decide) "a.html"

/-- **C2, counterexample.**  Restore iterates over the *target directory's*
listing, not over the cache folder, so a file present in the cache but
deleted from the directory is not recreated: with an empty directory and a
cache entry `x ↦ orig`, after `unminify` there is still no file `x` (and
the cache is deleted, losing `orig`). -/
theorem c2_cex :
    lookupF (unminifyBody (Dir.mk [] (some [("x", "orig")]))).files "x" = none ∧
      tmpLookup (Dir.mk [] (some [("x", "orig")])) "x" = some "orig" := by
  decide

/-- **C2, amended.**  Restore copies the cached content over the file of the
same name only for names that appear in the target directory's listing:
every listed (non-hidden, whitespace- and glob-free) file with a cache
entry receives the cached content, a name with no file in the directory is
not recreated, and the cache folder is deleted. -/
theorem c2_restore (d : Dir) (t : List File) (ht : d.tmp = some t)
    (h2 : (names d).Nodup)
    (h4 : ∀ n ∈ names d, startsDot n = false → plainN n = true) :
    (∀ n c, startsDot n = false → n ∈ names d → lookupF t n = some c →
      lookupF (unminifyBody d).files n = some c) ∧
    (∀ n, lookupF d.files n = none →
      lookupF (unminifyBody d).files n = none) ∧
    (unminifyBody d).tmp = none := by
  refine ⟨?_, ?_, (unminifyBody_spec d h2 h4 "").2⟩
  · intro n c hdot hmem hcache
    have hspec := (unminifyBody_spec d h2 h4 n).1
    have hls : n ∈ lsNames d := (mem_lsNames d n).mpr ⟨hmem, hdot⟩
    have htl : tmpLookup d n = some c := by
      rw [tmpLookup, ht]; exact hcache
    rw [hspec, if_pos ⟨hls, by rw [htl]; rfl⟩, htl]
  · intro n hnone
    have hspec := (unminifyBody_spec d h2 h4 n).1
    have hnm : n ∉ lsNames d := by
      intro hmem
      have := (lookupF_isSome_iff_mem d.files n).mpr ((mem_lsNames d n).mp hmem).1
      rw [hnone] at this
      simp at this
    rw [hspec, if_neg (fun hc => hnm hc.1), hnone]

/-- **C2, witness.**  On a directory holding `a` (minified content) with a
cache entry `a ↦ orig`, restore rewrites `a` with `orig`, creates nothing
else, and deletes the cache. -/
theorem c2_witness :
    lookupF (unminifyBody (Dir.mk [("a", "min")]
        (some [("a", "orig")]))).files "a" = some "orig" ∧
    lookupF (unminifyBody (Dir.mk [("a", "min")]
        (some [("a", "orig")]))).files "b" = none ∧
    (unminifyBody (Dir.mk [("a", "min")] (some [("a", "orig")]))).tmp = none := by
  have h := c2_restore (Dir.mk [("a", "min")] (some [("a", "orig")]))
    [("a", "orig")] (by decide) (by decide) (by decide)
  exact ⟨h.1 "a" "orig" (by decide) (by decide) (by decide),
    h.2.1 "b" (by decide), h.2.2⟩

/-- **C3.**  After minify of a directory whose visible file names are
whitespace- and glob-free — whether a first minify, a re-minify over an
existing cache, or a run whose `mkdir .tmp` was blocked — every visible
file's content contains no newline and no tab byte: the pipeline deletes
all of both, the sed stage only ever deletes characters, and a blocked
cache truncates processed files to empty. -/
theorem c3_no_nl_tab (d : Dir) (h2 : (names d).Nodup)
    (h4 : ∀ n ∈ names d, startsDot n = false → plainN n = true) :
    ∀ n c, startsDot n = false →
      lookupF (minifyBody d).files n = some c →
      '\n' ∉ c.data ∧ '\t' ∉ c.data := by
  intro n c hdot hsome
  by_cases hmem : n ∈ lsNames d
  · have hs0 : (lookupF d.files n).isSome := by
      rw [lookupF_isSome_iff_mem]
      exact ((mem_lsNames d n).mp hmem).1
    obtain ⟨c0, hc0⟩ := Option.isSome_iff_exists.mp hs0
    rcases minifyBody_lookup_visible d h2 h4 n c0 hmem hc0 with h | h
    · rw [h] at hsome
      have hce : transform c0 = c := Option.some.inj hsome
      rw [← hce]
      exact transform_no_nl_tab c0
    · rw [h] at hsome
      have hce : ("" : String) = c := Option.some.inj hsome
      rw [← hce]
      simp
  · exfalso
    rw [minifyBody_lookup_hidden d h4 n hmem] at hsome
    exact hmem ((mem_lsNames d n).mpr
      ⟨(lookupF_isSome_iff_mem d.files n).mp (by rw [hsome]; rfl), hdot⟩)

/-- **C3, witness.**  Minifying the directory holding `a` with content
`"x\n\ty"` yields a content (`"xy"`) with no newline and no tab byte. -/
theorem c3_witness :
    '\n' ∉ ("xy" : String).data ∧ '\t' ∉ ("xy" : String).data :=
  c3_no_nl_tab (Dir.mk [("a", "x\n\ty")] none)
    (by decide) (by decide) "a" "xy" (by decide) (by decide)

theorem patStr_data : ("\x7b2,\x7d" : String).data = patChars := by decide

/-- **C4, counterexample.**  The sed stage does not collapse runs of `\x7b`:
minifying a file whose content is two consecutive `\x7b` characters leaves
the content unchanged (the ERE `\x7b2,}` matches the literal string
`\x7b2,\x7d`, since the backslash-escaped brace is a literal and no
quantifier is formed), whereas the claim requires the run to be removed,
which would leave the empty content. -/
theorem c4_cex :
    lookupF (minifyBody (Dir.mk [("a", "\x7b\x7b")] none)).files "a" =
      some "\x7b\x7b" ∧ ("\x7b\x7b" : String) ≠ "" := by
  decide

/-- **C4, amended.**  After removing newlines and tabs, the transform
removes every occurrence of the literal four-character string `\x7b2,\x7d`
(and nothing else): on a prefix free of newlines, tabs and of that literal,
the transform deletes an immediately following occurrence of the literal
and continues, and a string free of all three is a fixed point. -/
theorem c4_sed_literal (x r : String)
    (hx1 : ∀ c ∈ x.data, ¬c = '\n' ∧ ¬c = '\t')
    (hx2 : occursPat x.data = false) :
    transform (x ++ "\x7b2,\x7d" ++ r) = x ++ transform r ∧ transform x = x := by
  have hxf :
      (x.data.filter (fun c => !(c = '\n'))).filter (fun c => !(c = '\t')) =
        x.data := by
    rw [List.filter_filter, List.filter_eq_self]
    intro a ha
    have := hx1 a ha
    simp [this.1, this.2]
  have hpf :
      (patChars.filter (fun c => !(c = '\n'))).filter (fun c => !(c = '\t')) =
        patChars := by
    decide
  constructor
  · apply String.ext
    show sedStrip ((((x ++ "\x7b2,\x7d" ++ r).data.filter
        (fun c => !(c = '\n'))).filter (fun c => !(c = '\t')))) =
      x.data ++ (transform r).data
    rw [string_data_append, string_data_append, patStr_data,
      List.filter_append, List.filter_append, List.filter_append,
      List.filter_append]
    rw [show ((x.data.filter (fun c => !(c = '\n'))).filter
        (fun c => !(c = '\t'))) = x.data from hxf]
    rw [show ((patChars.filter (fun c => !(c = '\n'))).filter
        (fun c => !(c = '\t'))) = patChars from hpf]
    rw [sedStrip_append_pat _ _ hx2]
    rfl
  · apply String.ext
    show sedStrip (((x.data.filter (fun c => !(c = '\n'))).filter
        (fun c => !(c = '\t')))) = x.data
    rw [hxf, sedStrip_of_no_occurrence _ hx2]

/-- **C4, witness.**  `transform ("ab" ++ "\x7b2,\x7d" ++ "c\nd")` equals
`"ab" ++ transform "c\nd"` (that is, `"abcd"`), and `transform "ab" = "ab"`. -/
theorem c4_witness :
    transform ("ab" ++ "\x7b2,\x7d" ++ "c\nd") = "ab" ++ transform "c\nd" ∧
      transform "ab" = "ab" :=
  c4_sed_literal "ab" "c\nd" (by decide) (by decide)

/-- **C5, counterexample.**  Calling `unminify` on an existing directory
with no `.tmp` cache does not fail: the per-file `cp` and the `rm -r .tmp/`
commands fail, but the script carries on and the function's exit status —
that of its final `cd -` — is 0; the directory is left unmodified. -/
theorem c5_cex :
    (callFn unminifyBody (Sh.mk (Dir.mk [] none)
        [("_layouts", Dir.mk [("a", "x\ny")] none)] none none) "_layouts").2
      = 0 ∧
    lookupD (callFn unminifyBody (Sh.mk (Dir.mk [] none)
        [("_layouts", Dir.mk [("a", "x\ny")] none)] none none) "_layouts").1.dirs
        "_layouts" = some (Dir.mk [("a", "x\ny")] none) := by
  decide

/-- **C5, amended.**  Restore on a directory with no cache leaves every
file's content unmodified (the cache stays absent), but the operation does
not abort with an error: whenever the target directory exists, the call's
exit status is 0. -/
theorem c5_restore_nocache (d : Dir) (h : d.tmp = none) :
    unminifyBody d = Dir.mk d.files none ∧
    ∀ (s : Sh) (p : String), lookupD s.dirs (resolveP s p) = some d →
      (callFn unminifyBody s p).2 = 0 := by
  constructor
  · rw [unminifyBody, unminifyLoop_of_tmp_none _ _ h]
  · intro s p hlook
    simp [callFn, hlook]

/-- **C5, witness.**  On the shell state whose only directory `_layouts`
holds file `a` and no cache, the restore call leaves `a` intact and returns
status 0. -/
theorem c5_witness :
    unminifyBody (Dir.mk [("a", "x\ny")] none) =
      Dir.mk [("a", "x\ny")] none ∧
    (callFn unminifyBody (Sh.mk (Dir.mk [] none)
        [("_layouts", Dir.mk [("a", "x\ny")] none)] none none) "_layouts").2
      = 0 := by
  have h := c5_restore_nocache (Dir.mk [("a", "x\ny")] none) (by decide)
  exact ⟨h.1, h.2 (Sh.mk (Dir.mk [] none)
    [("_layouts", Dir.mk [("a", "x\ny")] none)] none none) "_layouts"
    (by decide)⟩

/-- **C6.**  When the target directory does not exist, `cd "$1"` fails but
the script does not abort: the function body runs in the caller's current
working directory.  Here `minify _layouts` with no `_layouts` present
creates `.tmp` in the caller's directory, backs up its file `a` there and
rewrites `a` with the transformed content — far from performing no
operation. -/
theorem c6_missing_dir :
    lookupD (Sh.mk (Dir.mk [("a", "x\ny")] none) [] none none).dirs
        "_layouts" = none ∧
    (callFn minifyBody (Sh.mk (Dir.mk [("a", "x\ny")] none) [] none none)
        "_layouts").1.startDir =
      Dir.mk [("a", "xy")] (some [("a", "x\ny")]) := by
  decide

/-- **C7.**  Running minify twice in a row (no restore in between) leaves in
the cache, for every visible file, exactly the content produced by the first
run: the second run backs up the already-minified content, silently losing
the original.  (Both runs are total functions of the model — nothing
crashes.) -/
theorem c7_double_minify (d : Dir) (_h1 : d.tmp = none)
    (h2 : (names d).Nodup) (h3 : lookupF d.files ".tmp" = none)
    (h4 : ∀ n ∈ names d, startsDot n = false → plainN n = true) :
    ∀ n c, startsDot n = false →
      lookupF (minifyBody d).files n = some c →
      tmpLookup (minifyBody (minifyBody d)) n = some c := by
  intro n c hdot hsome
  have h2m : (names (minifyBody d)).Nodup := by
    rw [names_minifyBody d h4]; exact h2
  have h4m : ∀ n ∈ names (minifyBody d), startsDot n = false → plainN n = true := by
    rw [names_minifyBody d h4]; exact h4
  have htm : (minifyBody d).tmp.isSome = true :=
    tmp_isSome_minifyBody d (fun _ => h3)
  have hspec := (minifyBody_spec_resume (minifyBody d) htm h2m h4m n).2
  have hmem : n ∈ lsNames (minifyBody d) := by
    rw [mem_lsNames]
    exact ⟨(lookupF_isSome_iff_mem _ n).mp (by rw [hsome]; rfl), hdot⟩
  rw [hspec, if_pos hmem, hsome]

/-- **C7, witness.**  Minifying the directory holding `a` (content
`"x\ny"`) twice leaves `a ↦ "xy"` — the first run's output — in the cache. -/
theorem c7_witness :
    tmpLookup (minifyBody (minifyBody (Dir.mk [("a", "x\ny")] none))) "a" =
      some "xy" :=
  c7_double_minify (Dir.mk [("a", "x\ny")] none)
    (by decide) (by decide) (by decide) (by decide) "a" "xy"
    (by decide) (by decide)

/-- **C8, counterexample.**  The scripts take no command-line arguments (the
four directory paths are hard-coded) and a shell script's exit status is
that of its *last* command only.  On a state where
`_layouts/indexes/category` does not exist (so its processing necessarily
fails — `cd` fails and the loop runs in whatever directory the shell is in)
but the other three directories do, the minify script still exits with
status 0. -/
theorem c8_cex :
    lookupD (Sh.mk (Dir.mk [("s", "x")] none)
        [("_layouts", Dir.mk [("a", "p\nq")] none),
         ("_layouts/indexes", Dir.mk [("b", "r")] none),
         ("_layouts/partials", Dir.mk [("c", "t\tu")] none)] none none).dirs
      "_layouts/indexes/category" = none ∧
    scriptExit (runMinifyScript (Sh.mk (Dir.mk [("s", "x")] none)
        [("_layouts", Dir.mk [("a", "p\nq")] none),
         ("_layouts/indexes", Dir.mk [("b", "r")] none),
         ("_layouts/partials", Dir.mk [("c", "t\tu")] none)] none none)) = 0 := by
  decide

/-- **C8, amended.**  Each script processes the fixed list `_layouts`,
`_layouts/indexes`, `_layouts/indexes/category`, `_layouts/partials` in
sequence, and its exit status is exactly the status of the fourth (last)
call — the statuses of the first three calls do not influence it. -/
theorem c8_exit_is_last (s : Sh) :
    scriptExit (runMinifyScript s) =
      (callFn minifyBody (runCalls minifyBody s
        ["_layouts", "_layouts/indexes", "_layouts/indexes/category"]).1
        "_layouts/partials").2 ∧
    scriptExit (runUnminifyScript s) =
      (callFn unminifyBody (runCalls unminifyBody s
        ["_layouts", "_layouts/indexes", "_layouts/indexes/category"]).1
        "_layouts/partials").2 := by
  constructor <;> rfl

/-- **C9, counterexample.**  A dot-prefixed entry *can* be read, cached and
rewritten: the visible file name `a .b` field-splits into the words `a` and
`.b`, and since a regular file `.b` exists, the loop backs it up into the
cache and rewrites it minified — although `ls` never listed it. -/
theorem c9_cex :
    lookupF (minifyBody (Dir.mk [("a .b", "z"), (".b", "x\ny")] none)).files
        ".b" ≠
      lookupF (Dir.mk [("a .b", "z"), (".b", "x\ny")] none).files ".b" ∧
    tmpLookup (minifyBody (Dir.mk [("a .b", "z"), (".b", "x\ny")] none)) ".b" =
      some "x\ny" := by
  decide

/-- **C9, amended.**  Provided every visible file name is whitespace-free,
dot-prefixed entries are untouched: `ls` does not list them, so neither
operation reads, caches or modifies them (in particular nothing is ever
copied out of — or into — the `.tmp` cache entry for a dot-prefixed name,
and the cache folder itself, being dot-prefixed, is never listed). -/
theorem c9_dot_untouched (d : Dir)
    (h4 : ∀ n ∈ names d, startsDot n = false → wsFree n = true) :
    ∀ n, startsDot n = true →
      lookupF (minifyBody d).files n = lookupF d.files n ∧
      tmpLookup (minifyBody d) n = tmpLookup d n ∧
      lookupF (unminifyBody d).files n = lookupF d.files n := by
  intro n hn
  have h4m : ∀ m ∈ names (mkdirTmp d), startsDot m = false → wsFree m = true := by
    have he : names (mkdirTmp d) = names d := by
      unfold names
      rw [mkdirTmp_files]
    rw [he]
    exact h4
  have h5 : minifyBody d = minifyLoop (mkdirTmp d) (wordsOf (mkdirTmp d)) := rfl
  have hmini := minifyLoop_notdot (wordsOf (mkdirTmp d)) (mkdirTmp d) n
    (wordsOf_wsfree_notdot (mkdirTmp d) h4m) hn
  have humini := unminifyLoop_notdot (wordsOf d) d n
    (wordsOf_wsfree_notdot d h4) hn
  refine ⟨?_, ?_, ?_⟩
  · rw [h5, hmini.1, mkdirTmp_files]
  · rw [h5, hmini.2, tmpLookup_mkdirTmp]
  · show lookupF (unminifyLoop d (wordsOf d)).files n = lookupF d.files n
    exact humini

/-- **C9, witness.**  On the directory with visible file `a` and hidden file
`.b` (content `"y\nz"`), minify and unminify leave `.b` untouched and
place no cache entry for it. -/
theorem c9_witness :
    lookupF (minifyBody (Dir.mk [("a", "x"), (".b", "y\nz")] none)).files
        ".b" =
      lookupF (Dir.mk [("a", "x"), (".b", "y\nz")] none).files ".b" ∧
    tmpLookup (minifyBody (Dir.mk [("a", "x"), (".b", "y\nz")] none)) ".b" =
      tmpLookup (Dir.mk [("a", "x"), (".b", "y\nz")] none) ".b" ∧
    lookupF (unminifyBody (Dir.mk [("a", "x"), (".b", "y\nz")] none)).files
        ".b" =
      lookupF (Dir.mk [("a", "x"), (".b", "y\nz")] none).files ".b" :=
  c9_dot_untouched (Dir.mk [("a", "x"), (".b", "y\nz")] none)
    (by decide) ".b" (by decide)

/-- With glob-free visible names, every loop word is a whitespace-free,
glob-free fragment of a listed name (pathname expansion is the identity on
such fragments). -/
theorem wordsOf_fragments_plain (d : Dir)
    (hglob : ∀ m ∈ names d, startsDot m = false → hasGlobChar m = false) :
    ∀ w ∈ wordsOf d, plainN w = true := by
  intro w hw
  rw [wordsOf, List.mem_flatMap] at hw
  obtain ⟨u, hu, hwu⟩ := hw
  rw [List.mem_flatMap] at hu
  obtain ⟨m, hm, hum⟩ := hu
  have hmg : hasGlobChar m = false :=
    hglob m ((mem_lsNames d m).mp hm).1 ((mem_lsNames d m).mp hm).2
  have huw : wsFree u = true :=
    splitWsAux_mem_wsFree m.data [] (by simp) u hum
  have hug : hasGlobChar u = false := by
    by_contra hcon
    rw [Bool.not_eq_false, hasGlobChar, List.any_eq_true] at hcon
    obtain ⟨c, hc, hcg⟩ := hcon
    have hcm : c ∈ m.data := splitWs_chars m u hum c hc
    have : hasGlobChar m = true := by
      rw [hasGlobChar, List.any_eq_true]
      exact ⟨c, hcm, hcg⟩
    rw [hmg] at this
    exact Bool.false_ne_true this
  rw [expandGlob_of_noGlob _ _ hug] at hwu
  simp at hwu
  subst hwu
  rw [plainN, Bool.and_eq_true, huw, hug]
  simp

/-- **C10, counterexample.**  A whitespace-named visible file is *not*
always skipped: with files `a` (content `"k\nl"`), `a?` and `a ` (trailing
space, content `"orig-spaced\n"`), the split field `a?` glob-expands to the
loop words `a ` and `a?`; for the word `a `, the test `[ -f $f ]`
field-splits it to `a` and passes, and the redirection `> $f` — exempt from
field splitting — then overwrites the file named `a ` with the transformed
content of `a`'s cache copy, leaving it `"kl"`. -/
theorem c10_cex :
    lookupF (minifyBody (Dir.mk
        [("a", "k\nl"), ("a?", "m"), ("a ", "orig-spaced\n")] none)).files
      "a " = some "kl" ∧
    ("kl" : String) ≠ "orig-spaced\n" := by
  decide

/-- **C10, amended.**  When no visible file name contains a glob
metacharacter, a visible file whose name contains whitespace *is* skipped
entirely: every loop word is then a whitespace-free fragment of a listed
name, none of which can equal — or be rewritten into — the whitespace-bearing
name, so that file's content is unmodified (keeping its newlines and tabs)
and no cache entry is created under its name.  A glob metacharacter in
another name breaks this, as the counterexample shows. -/
theorem c10_ws_name_skipped (d : Dir) (n : String)
    (hn : n.data.any isWsChar = true)
    (hglob : ∀ m ∈ names d, startsDot m = false → hasGlobChar m = false) :
    lookupF (minifyBody d).files n = lookupF d.files n ∧
      tmpLookup (minifyBody d) n = tmpLookup d n := by
  have hglobm : ∀ m ∈ names (mkdirTmp d), startsDot m = false →
      hasGlobChar m = false := by
    have he : names (mkdirTmp d) = names d := by
      unfold names
      rw [mkdirTmp_files]
    rw [he]
    exact hglob
  have hwp : ∀ w ∈ wordsOf (mkdirTmp d), plainN w = true ∧ w ≠ n := by
    intro w hw
    have hp := wordsOf_fragments_plain (mkdirTmp d) hglobm w hw
    refine ⟨hp, ?_⟩
    intro heq
    have hwf : wsFree w = true := plainN_wsFree w hp
    rw [heq, wsFree, Bool.and_eq_true] at hwf
    obtain ⟨c, hc, hcw⟩ := List.any_eq_true.mp hn
    have := (List.all_eq_true.mp hwf.2) c hc
    rw [hcw] at this
    simp at this
  have h5 : minifyBody d = minifyLoop (mkdirTmp d) (wordsOf (mkdirTmp d)) := rfl
  have hmini := minifyLoop_untouched (wordsOf (mkdirTmp d)) (mkdirTmp d) n hwp
  constructor
  · rw [h5, hmini.1, mkdirTmp_files]
  · rw [h5, hmini.2, tmpLookup_mkdirTmp]

/-- **C10, witness.**  Minify on the directory holding the single file
`a b` (a name with a space, content `"x\ny"`) leaves its content — and its
newline — in place and caches nothing under that name. -/
theorem c10_witness :
    lookupF (minifyBody (Dir.mk [("a b", "x\ny")] none)).files "a b" =
      lookupF (Dir.mk [("a b", "x\ny")] none).files "a b" ∧
    tmpLookup (minifyBody (Dir.mk [("a b", "x\ny")] none)) "a b" =
      tmpLookup (Dir.mk [("a b", "x\ny")] none) "a b" :=
  c10_ws_name_skipped (Dir.mk [("a b", "x\ny")] none) "a b"
    (by decide) (by decide)

end Site
